import Mathlib

/-!
Verification of the termgrep frame-extraction and match-coalescing engine
(`src/main.rs`) against its natural-language specification.

Modelling conventions (shallow embedding):
* Screen text is a `List Char`; one `Char` of the model corresponds to one
  character of the Rust string.  Hyperscan reports byte offsets while
  `highlight_matches` enumerates characters; the model uses character
  offsets throughout, which coincides with the source on the single-byte
  texts all concrete scenarios use.
* Timestamps are `f64` values in the source but the engine only copies them
  around (no arithmetic feeds back into control flow), so they are modelled
  as `Int`.
* The external collaborators — serde record parsing, the avt terminal
  emulator and the hyperscan pattern matcher — are modelled by their
  interfaces: a raw log line is represented by its parse outcome
  (`Option Entry`), a frame by its list of viewport rows, and the matcher by
  a function `scan : List Char → List (Nat × Nat)`.
-/

namespace Termgrep

/-! ## Event source (`events` in `main.rs`) -/

/-- Record kinds of the asciinema log format (`enum EntryKind`). -/
inductive EntryKind where
  | Input
  | Output
  | Mark
  | Resize
  | TermFlags
deriving DecidableEq

/-- A parsed non-header record (`struct Entry`); the `f64` timestamp is
modelled as `Int`. -/
structure Entry where
  timestamp : Int
  kind : EntryKind
  data : List Char
deriving DecidableEq

/-- `events` from `main.rs`: each raw log line is represented by its serde
parse outcome (`none` = unreadable or malformed line).  The source runs
`reader.lines().filter_map(...)` where both a line error and a parse error
yield `None` of the `filter_map` closure, and records of a non-selected kind
are dropped. -/
def events (ls : List (Option Entry)) (eventType : Option EntryKind) :
    List (Int × List Char) :=
  ls.filterMap fun l =>
    match l with
    | none => none
    | some e =>
      match eventType with
      | some k => if e.kind = k then some (e.timestamp, e.data) else none
      | none => some (e.timestamp, e.data)

/-- Modelled from the spec's words, for comparison: a decode error is "a
soft end-of-stream for that file only — the file is finalized as if the log
ended there".  Decoding stops at the first malformed line. -/
def eventsSoftEOS (ls : List (Option Entry)) (eventType : Option EntryKind) :
    List (Int × List Char) :=
  events (ls.takeWhile fun l => l.isSome) eventType

/-! ## Frame flattening (`search_file` lines 328–336) -/

/-- Right-trim trailing whitespace, as Rust's `str::trim_end` does (the
whitespace characters that can actually occur here are the ASCII ones,
which is exactly `Char.isWhitespace`). -/
def trimEnd (l : List Char) : List Char :=
  (l.reverse.dropWhile Char.isWhitespace).reverse

/-- The flattening loop body of `search_file`: starting from the
accumulated text `acc`, append each row's characters, truncate the whole
accumulated text to its right-trimmed length, and push a newline if the
row made the text longer.  (This is the `for chars in lines.iter()` loop.) -/
def flattenFrom (acc : List Char) : List (List Char) → List Char
  | [] => acc
  | row :: rest =>
    let acc1 := trimEnd (acc ++ row)
    let acc2 := if acc.length < acc1.length then acc1 ++ ['\n'] else acc1
    flattenFrom acc2 rest

/-- Frame text as `search_file` computes it from the viewport rows. -/
def flattenRows (rows : List (List Char)) : List Char :=
  flattenFrom [] rows

/-- Modelled from the spec's words, for comparison: "visiting viewport rows
top-to-bottom, right-trimming trailing whitespace from each row, and
joining non-empty rows with a single newline". -/
def flattenJoinSpec (rows : List (List Char)) : List Char :=
  List.intercalate ['\n'] (((rows.map trimEnd).filter fun r => r ≠ []))

/-- Closed-form characterisation of `flattenRows`, used in the amended
claim: the `Bool` flag records whether a newline delimiter is pending after
the previously contributed row.  A row that trims to empty cancels the
pending newline (fusing its neighbours); a row that trims to non-empty
emits the pending newline, its trimmed text, and leaves a new newline
pending; at the end a pending newline is emitted. -/
def flattenAux (p : Bool) : List (List Char) → List Char
  | [] => if p then ['\n'] else []
  | r :: rest =>
    if trimEnd r = [] then flattenAux false rest
    else (if p then ['\n'] else []) ++ trimEnd r ++ flattenAux true rest

/-! ## Match coalescer (`search_file` lines 313–412) -/

/-- The open match span (`struct MatchData`); `filename` and `start_time`
are per-file constants handled at display time and are omitted. -/
structure MatchData where
  start_frame : Nat
  end_frame : Nat
  start_ts : Int
  end_ts : Int
  last_frame_text : List Char
  match_ranges : List (Nat × Nat)
deriving DecidableEq

/-- The mutable state of the scan loop: the running `match_count` and the
optional open span `mi`. -/
structure SearchState where
  count : Nat
  mi : Option MatchData
deriving DecidableEq

/-- One invocation of the `db.scan` match callback in `search_file` for the
occurrence `r` on frame `i` (time `t`, flattened text `x`).  Returns the
new state, an optional span flushed to the presenter, and whether the
callback returned `Matching::Terminate` (which happens when the incremented
`match_count` exceeds `maxM`, before any span update). -/
def occStep (maxM i : Nat) (t : Int) (x : List Char) (st : SearchState)
    (r : Nat × Nat) : SearchState × Option MatchData × Bool :=
  let c := st.count + 1
  if maxM < c then (⟨c, st.mi⟩, none, true)
  else
    match st.mi with
    | none => (⟨c, some ⟨i, i, t, t, x, [r]⟩⟩, none, false)
    | some md =>
      if i = md.end_frame + 1 then
        let md' := { md with end_frame := i, end_ts := t,
                             last_frame_text := x, match_ranges := [r] }
        (⟨c, some md'⟩, none, false)
      else if i = md.end_frame then
        let md' := { md with match_ranges := md.match_ranges ++ [r] }
        (⟨c, some md'⟩, none, false)
      else
        (⟨c, some ⟨i, i, t, t, x, [r]⟩⟩, some md, false)

/-- Process the ordered occurrence list of one frame (the sequence of match
callbacks of one `db.scan` call).  Returns the final state, the spans
flushed along the way, and whether the scan was terminated. -/
def scanFrame (maxM i : Nat) (t : Int) (x : List Char) :
    SearchState → List (Nat × Nat) → SearchState × List MatchData × Bool
  | st, [] => (st, [], false)
  | st, r :: rs =>
    match occStep maxM i t x st r with
    | (st', fl, true) => (st', fl.toList, true)
    | (st', fl, false) =>
      let rec' := scanFrame maxM i t x st' rs
      (rec'.1, fl.toList ++ rec'.2.1, rec'.2.2)

/-- Result of scanning one file: the spans flushed (in order, including the
final flush after the loop) and the indices of the frames that were handed
to the pattern matcher. -/
structure SearchResult where
  flushes : List MatchData
  scanned : List Nat
deriving DecidableEq

/-- The frame loop of `search_file`: every frame is scanned until a
`ScanTerminated` error breaks the loop; after the loop (or the break) any
open span is flushed. -/
def searchLoop (scan : List Char → List (Nat × Nat)) (maxM : Nat) :
    Nat → SearchState → List (Int × List Char) → SearchResult
  | _, st, [] => ⟨st.mi.toList, []⟩
  | i, st, (t, x) :: rest =>
    match scanFrame maxM i t x st (scan x) with
    | (st', fls, true) => ⟨fls ++ st'.mi.toList, [i]⟩
    | (st', fls, false) =>
      let r := searchLoop scan maxM (i + 1) st' rest
      ⟨fls ++ r.flushes, i :: r.scanned⟩

/-- `search_file` on the already-reconstructed frames of one file:
`match_count` starts at `0` and no span is open (`mi = None`). -/
def searchFile (scan : List Char → List (Nat × Nat)) (maxM : Nat)
    (frames : List (Int × List Char)) : SearchResult :=
  searchLoop scan maxM 0 ⟨0, none⟩ frames

/-- The file loop of `main`: `search_file` is invoked afresh for each file
in command-line order; no state is shared across calls. -/
def runFiles (scan : List Char → List (Nat × Nat)) (maxM : Nat) :
    List (List Char × List (Int × List Char)) →
    List (List Char × SearchResult)
  | [] => []
  | f :: fs => (f.1, searchFile scan maxM f.2) :: runFiles scan maxM fs

/-- Total number of match occurrences the matcher reports over a file's
frames. -/
def totalOccs (scan : List Char → List (Nat × Nat))
    (frames : List (Int × List Char)) : Nat :=
  (frames.map fun p => (scan p.2).length).sum

/-! ## Presenter: full-frame mode (`highlight_matches`) -/

/-- `COLOR_RED` (`"\x1b[31m"`), emitted when color is in use. -/
def cRed (uc : Bool) : List Char := if uc then ['\x1b', '[', '3', '1', 'm'] else []

/-- `COLOR_RESET` (`"\x1b[0m"`), emitted when color is in use. -/
def cReset (uc : Bool) : List Char := if uc then ['\x1b', '[', '0', 'm'] else []

/-- The markers `highlight_matches` emits just before the character at
position `i`: for each range, the start marker if `i` equals its `from`,
then the reset marker if `i` equals its `to` (checked for every range, in
list order). -/
def hmChar (uc : Bool) (i : Nat) (rs : List (Nat × Nat)) : List Char :=
  rs.foldl (fun acc r =>
    acc ++ (if i = r.1 then cRed uc else []) ++ (if i = r.2 then cReset uc else [])) []

/-- The character loop of `highlight_matches`: `i` enumerates the character
positions of the remaining text; markers are interleaved before each
existing character.  No iteration happens at position `length text`, so a
range ending there never gets its reset marker. -/
def hmGo (uc : Bool) (rs : List (Nat × Nat)) : Nat → List Char → List Char
  | _, [] => []
  | i, c :: cs => hmChar uc i rs ++ c :: hmGo uc rs (i + 1) cs

/-- `highlight_matches` from `main.rs`, with the color decision (`use_color`)
already made (`Always` ⇒ `true`, `Never` ⇒ `false`, `Auto` ⇒ whether stdout
is a terminal). -/
def highlightMatches (uc : Bool) (text : List Char) (rs : List (Nat × Nat)) :
    List Char :=
  hmGo uc rs 0 text

/-- Modelled from the spec's words, for comparison: markers are inserted at
every position `from` and `to` of a range, "including when `to` equals the
length of `representative_text`" — i.e. the marker position after the final
character is also visited. -/
def hmFullSpec (uc : Bool) (rs : List (Nat × Nat)) : Nat → List Char → List Char
  | i, [] => hmChar uc i rs
  | i, c :: cs => hmChar uc i rs ++ c :: hmFullSpec uc rs (i + 1) cs

/-! ## Presenter: line-only mode (`highlight_matchlines`) -/

/-- Split at `'\n'` characters, keeping empty pieces. -/
def splitNl : List Char → List (List Char)
  | [] => [[]]
  | c :: cs =>
    match splitNl cs with
    | [] => [[]]
    | l :: ls => if c = '\n' then [] :: l :: ls else (c :: l) :: ls

/-- Rust's `str::lines`: split on `'\n'`, the final line ending optional
(frame texts contain no carriage returns, so `\r\n` handling is not
modelled). -/
def rustLines (s : List Char) : List (List Char) :=
  let parts := splitNl s
  if parts.getLast? = some [] then parts.dropLast else parts

/-- `format!("\x7b:4\x7d: ", i + 1)`: the 1-based line number right-aligned in
four columns, followed by `": "`. -/
def numPfx (i : Nat) : List Char :=
  let s := (Nat.repr (i + 1)).toList
  List.replicate (4 - s.length) ' ' ++ s ++ [':', ' ']

/-- The inner range loop of `highlight_matchlines` for one line starting at
offset `pos` and ending at `lineEnd`: ranges fully contained in the line
(`from >= pos && to <= line_end`) append the text up to the match, the
highlighted match, and advance `line_pos`; all other ranges are skipped. -/
def lineFold (uc : Bool) (line : List Char) (pos lineEnd : Nat) :
    List (Nat × Nat) → List Char × Nat → List Char × Nat
  | [], st => st
  | (f, t) :: rs, (acc, lp) =>
    if pos ≤ f ∧ t ≤ lineEnd then
      lineFold uc line pos lineEnd rs
        (acc ++ (line.drop lp).take (f - pos - lp) ++ cRed uc
             ++ (line.drop (f - pos)).take (t - pos - (f - pos)) ++ cReset uc,
         t - pos)
    else lineFold uc line pos lineEnd rs (acc, lp)

/-- The line loop of `highlight_matchlines`: `i` is the 0-based line index
and `pos` the offset of the line's first character in `representative_text`;
after the range loop the line's tail is appended when `line_pos ≠ 0`, and
the line is emitted (with an optional line-number column) only when the
accumulated `line_text` is non-empty. -/
def hmlLines (uc sln : Bool) (rs : List (Nat × Nat)) :
    Nat → Nat → List (List Char) → List Char
  | _, _, [] => []
  | i, pos, line :: rest =>
    let st := lineFold uc line pos (pos + line.length) rs ([], 0)
    let lineText := if st.2 ≠ 0 then st.1 ++ line.drop st.2 else st.1
    let emitted :=
      if lineText ≠ [] then (if sln then numPfx i else []) ++ lineText ++ ['\n']
      else []
    emitted ++ hmlLines uc sln rs (i + 1) (pos + line.length + 1) rest

/-- `highlight_matchlines` from `main.rs`, with the color decision already
made. -/
def highlightMatchlines (uc sln : Bool) (text : List Char)
    (rs : List (Nat × Nat)) : List Char :=
  hmlLines uc sln rs 0 0 (rustLines text)

/-- The ranges of `rs` fully contained in the line `[pos, lineEnd]`, shifted
to line-relative offsets. -/
def containedRanges (pos lineEnd : Nat) (rs : List (Nat × Nat)) :
    List (Nat × Nat) :=
  (rs.filter fun r => decide (pos ≤ r.1 ∧ r.2 ≤ lineEnd)).map
    fun r => (r.1 - pos, r.2 - pos)

/-- Reference rendering of one line with its (line-relative, ascending)
highlighted ranges: unhighlighted segment, marker, match, marker, …, and the
tail after the last range. -/
def renderSeg (uc : Bool) (line : List Char) : Nat → List (Nat × Nat) → List Char
  | p, [] => line.drop p
  | p, (f, t) :: rs =>
    (line.drop p).take (f - p) ++ cRed uc ++ (line.drop f).take (t - f)
      ++ cReset uc ++ renderSeg uc line t rs

/-- As `renderSeg` but without the final tail (the state of `line_text`
before the `line_pos != 0` fix-up). -/
def renderMid (uc : Bool) (line : List Char) : Nat → List (Nat × Nat) → List Char
  | _, [] => []
  | p, (f, t) :: rs =>
    (line.drop p).take (f - p) ++ cRed uc ++ (line.drop f).take (t - f)
      ++ cReset uc ++ renderMid uc line t rs

/-- End offset of the last range, or `lp` if there is none (the final value
of `line_pos`). -/
def lastEnd (lp : Nat) : List (Nat × Nat) → Nat
  | [] => lp
  | r :: rs => lastEnd r.2 rs

/-- Reference line-only renderer for the amended claim: a line is emitted
iff it fully contains at least one range, and then rendered by `renderSeg`
over exactly its contained ranges. -/
def mlsGo (uc sln : Bool) (rs : List (Nat × Nat)) :
    Nat → Nat → List (List Char) → List Char
  | _, _, [] => []
  | i, pos, line :: rest =>
    let crs := containedRanges pos (pos + line.length) rs
    (if crs ≠ [] then
       (if sln then numPfx i else []) ++ renderSeg uc line 0 crs ++ ['\n']
     else []) ++ mlsGo uc sln rs (i + 1) (pos + line.length + 1) rest

/-- The amended-claim rendering of line-only mode. -/
def matchlinesSpec (uc sln : Bool) (text : List Char)
    (rs : List (Nat × Nat)) : List Char :=
  mlsGo uc sln rs 0 0 (rustLines text)

/-! ## The coalescer as a transition relation (spec §4.3)

For the determinism claim the coalescer is presented as a relation between
states, one occurrence event, successor states and flushed spans, with the
guards of `search_file`'s callback made explicit; `coalesceOccs` is the
functional runner built from `occStep` that realises it. -/

/-- One occurrence event of the coalescer's input stream: the frame that
produced the match, its timestamp and flattened text, and the reported
range. -/
structure OccEvent where
  frame : Nat
  time : Int
  text : List Char
  range : Nat × Nat
deriving DecidableEq

/-- The transition relation of the coalescer on one occurrence event:
`CoStep maxM st e st' fl tm` states that from state `st` the event `e`
leads to state `st'`, flushing `fl` and terminating the scan iff `tm`. -/
inductive CoStep (maxM : Nat) :
    SearchState → OccEvent → SearchState → Option MatchData → Bool → Prop where
  | term (st : SearchState) (e : OccEvent) (h : maxM < st.count + 1) :
      CoStep maxM st e ⟨st.count + 1, st.mi⟩ none true
  | openIdle (st : SearchState) (e : OccEvent) (h : st.count + 1 ≤ maxM)
      (hmi : st.mi = none) :
      CoStep maxM st e
        ⟨st.count + 1, some ⟨e.frame, e.frame, e.time, e.time, e.text, [e.range]⟩⟩
        none false
  | extend (st : SearchState) (e : OccEvent) (md : MatchData)
      (h : st.count + 1 ≤ maxM) (hmi : st.mi = some md)
      (hf : e.frame = md.end_frame + 1) :
      CoStep maxM st e
        ⟨st.count + 1, some { md with end_frame := e.frame, end_ts := e.time,
                                      last_frame_text := e.text,
                                      match_ranges := [e.range] }⟩
        none false
  | sameFrame (st : SearchState) (e : OccEvent) (md : MatchData)
      (h : st.count + 1 ≤ maxM) (hmi : st.mi = some md)
      (hf : e.frame = md.end_frame) :
      CoStep maxM st e
        ⟨st.count + 1, some { md with match_ranges := md.match_ranges ++ [e.range] }⟩
        none false
  | gap (st : SearchState) (e : OccEvent) (md : MatchData)
      (h : st.count + 1 ≤ maxM) (hmi : st.mi = some md)
      (hf1 : e.frame ≠ md.end_frame + 1) (hf2 : e.frame ≠ md.end_frame) :
      CoStep maxM st e
        ⟨st.count + 1, some ⟨e.frame, e.frame, e.time, e.time, e.text, [e.range]⟩⟩
        (some md) false

/-- A complete run of the coalescer over an occurrence stream, flushing the
open span at termination or at the end of the stream. -/
inductive CoRun (maxM : Nat) :
    SearchState → List OccEvent → List MatchData → Prop where
  | nil (st : SearchState) : CoRun maxM st [] st.mi.toList
  | consTerm (st st' : SearchState) (e : OccEvent) (es : List OccEvent)
      (fl : Option MatchData) (hs : CoStep maxM st e st' fl true) :
      CoRun maxM st (e :: es) (fl.toList ++ st'.mi.toList)
  | consCont (st st' : SearchState) (e : OccEvent) (es : List OccEvent)
      (fl : Option MatchData) (out : List MatchData)
      (hs : CoStep maxM st e st' fl false) (hr : CoRun maxM st' es out) :
      CoRun maxM st (e :: es) (fl.toList ++ out)

/-- Functional runner over an occurrence stream, built directly from the
code's callback body `occStep`. -/
def coalesceOccs (maxM : Nat) : SearchState → List OccEvent → List MatchData
  | st, [] => st.mi.toList
  | st, e :: es =>
    match occStep maxM e.frame e.time e.text st e.range with
    | (st', fl, true) => fl.toList ++ st'.mi.toList
    | (st', fl, false) => fl.toList ++ coalesceOccs maxM st' es

/-! ## Well-formedness predicates (spec §8, matcher contract of §4.2) -/

/-- Two ranges in "strictly ascending, non-overlapping" position: the first
ends no later than the second starts, and starts strictly before it. -/
def rangeRel (a b : Nat × Nat) : Prop := a.2 ≤ b.1 ∧ a.1 < b.1

instance : DecidableRel rangeRel := fun a b =>
  inferInstanceAs (Decidable (a.2 ≤ b.1 ∧ a.1 < b.1))

/-- A well-formed per-frame match report: pairwise ascending and
non-overlapping, each range non-empty and inside the scanned text of length
`n` (hyperscan rejects patterns matching the empty string, so `from < to`). -/
def RangesWF (rs : List (Nat × Nat)) (n : Nat) : Prop :=
  rs.Pairwise rangeRel ∧ ∀ r ∈ rs, r.1 < r.2 ∧ r.2 ≤ n

/-- The Pattern Matcher collaborator contract: every scan reports a
well-formed range list for the scanned text. -/
def MatcherOk (scan : List Char → List (Nat × Nat)) : Prop :=
  ∀ text, RangesWF (scan text) text.length

/-- The flushed-span invariant of spec §8: frames ordered, ranges pairwise
ascending and non-overlapping, each range inside `representative_text`. -/
def SpanOk (md : MatchData) : Prop :=
  md.start_frame ≤ md.end_frame
  ∧ md.match_ranges.Pairwise rangeRel
  ∧ ∀ r ∈ md.match_ranges, r.1 < r.2 ∧ r.2 ≤ md.last_frame_text.length

/-! ## Concrete collaborators used by witnesses and counterexamples -/

/-- A concrete matcher: exactly the frame text `"a"` produces the single
match `(0, 1)`. -/
def scanEx (t : List Char) : List (Nat × Nat) :=
  if t = ['a'] then [(0, 1)] else []

/-- Frames for spec §8 Scenario C: a matching frame, a non-matching frame,
a matching frame. -/
def framesEx : List (Int × List Char) :=
  [(0, ['a']), (1, ['b']), (2, ['a'])]

end Termgrep

namespace Termgrep

/-! ## Helper lemmas on `trimEnd` -/

theorem dropWhile_append_of_nil {α : Type} (p : α → Bool) (a b : List α)
    (h : a.dropWhile p = []) : (a ++ b).dropWhile p = b.dropWhile p := by
  induction a with
  | nil => rfl
  | cons x a ih =>
    by_cases hx : p x
    · simp only [List.cons_append, List.dropWhile_cons, hx, if_true]
      exact ih (by simpa [List.dropWhile_cons, hx] using h)
    · simp [List.dropWhile_cons, hx] at h

theorem dropWhile_append_of_ne_nil {α : Type} (p : α → Bool) (a b : List α)
    (h : a.dropWhile p ≠ []) : (a ++ b).dropWhile p = a.dropWhile p ++ b := by
  induction a with
  | nil => simp at h
  | cons x a ih =>
    by_cases hx : p x
    · simp only [List.cons_append, List.dropWhile_cons, hx, if_true]
      exact ih (by simpa [List.dropWhile_cons, hx] using h)
    · simp [List.dropWhile_cons, hx]

theorem dropWhile_idem {α : Type} (p : α → Bool) (l : List α) :
    (l.dropWhile p).dropWhile p = l.dropWhile p := by
  induction l with
  | nil => rfl
  | cons x l ih =>
    by_cases hx : p x
    · simpa [List.dropWhile_cons, hx] using ih
    · simp [List.dropWhile_cons, hx]

theorem trimEnd_append_ws (u r : List Char) (h : trimEnd r = []) :
    trimEnd (u ++ r) = trimEnd u := by
  have h' : r.reverse.dropWhile Char.isWhitespace = [] := by
    have := congrArg List.reverse h
    simpa [trimEnd] using this
  simp only [trimEnd, List.reverse_append]
  rw [dropWhile_append_of_nil _ _ _ h']

theorem trimEnd_append_keep (u r : List Char) (h : trimEnd r ≠ []) :
    trimEnd (u ++ r) = u ++ trimEnd r := by
  have h' : r.reverse.dropWhile Char.isWhitespace ≠ [] := by
    intro hc
    exact h (by simp [trimEnd, hc])
  simp only [trimEnd, List.reverse_append]
  rw [dropWhile_append_of_ne_nil _ _ _ h']
  simp

theorem trimEnd_trimEnd (r : List Char) : trimEnd (trimEnd r) = trimEnd r := by
  simp [trimEnd, dropWhile_idem]

theorem trimEnd_fix (u r : List Char) (h : trimEnd r ≠ []) :
    trimEnd (u ++ trimEnd r) = u ++ trimEnd r := by
  rw [trimEnd_append_keep u (trimEnd r) (by rw [trimEnd_trimEnd]; exact h),
    trimEnd_trimEnd]

theorem trimEnd_nil : trimEnd ([] : List Char) = [] := rfl

/-- The flattening fold, started from a right-trim-stable prefix `u` with a
pending newline flag `p`, produces `u` followed by the closed-form
`flattenAux p`. -/
theorem flattenFrom_eq (rows : List (List Char)) :
    ∀ (u : List Char) (p : Bool), trimEnd u = u →
      flattenFrom (u ++ if p then ['\n'] else []) rows = u ++ flattenAux p rows := by
  induction rows with
  | nil =>
    intro u p hu
    cases p <;> simp [flattenFrom, flattenAux]
  | cons row rest ih =>
    intro u p hu
    by_cases hrow : trimEnd row = []
    · have hacc1 : trimEnd ((u ++ if p then ['\n'] else []) ++ row) = u := by
        rw [trimEnd_append_ws _ _ hrow]
        cases p
        · simpa using hu
        · simp only [if_true]
          rw [trimEnd_append_ws u ['\n'] (by rfl)]
          exact hu
      have hlen : ¬ (u ++ if p then ['\n'] else []).length <
          (trimEnd ((u ++ if p then ['\n'] else []) ++ row)).length := by
        rw [hacc1]
        cases p <;> simp
      simp only [flattenFrom, hacc1, hlen, if_false]
      have := ih u false hu
      simpa [flattenAux, hrow] using this
    · have hacc1 : trimEnd ((u ++ if p then ['\n'] else []) ++ row)
          = (u ++ if p then ['\n'] else []) ++ trimEnd row :=
        trimEnd_append_keep _ _ hrow
      have hlen : (u ++ if p then ['\n'] else []).length <
          ((u ++ if p then ['\n'] else []) ++ trimEnd row).length := by
        simp only [List.length_append]
        have : 0 < (trimEnd row).length := List.length_pos.mpr hrow
        omega
      simp only [flattenFrom, hacc1]
      rw [if_pos hlen]
      have hu' : trimEnd ((u ++ if p then ['\n'] else []) ++ trimEnd row)
          = (u ++ if p then ['\n'] else []) ++ trimEnd row :=
        trimEnd_fix _ _ hrow
      have h2 := ih ((u ++ if p then ['\n'] else []) ++ trimEnd row) true hu'
      calc flattenFrom (((u ++ if p then ['\n'] else []) ++ trimEnd row) ++ ['\n']) rest
          = ((u ++ if p then ['\n'] else []) ++ trimEnd row) ++ flattenAux true rest := by
            simpa using h2
        _ = u ++ flattenAux p (row :: rest) := by
            simp [flattenAux, hrow, List.append_assoc]

end Termgrep

namespace Termgrep

/-! ## Claim C2 — frame text flattening -/

/-- Claim C2, counterexample: for viewport rows `["abc", "   ", "def"]` the
code's flattening produces `"abcdef\n"`, not the claimed `"abc\ndef"`: the
all-whitespace row's `trim_end` of the whole accumulated text also removes
the newline pushed after `"abc"`, fusing the rows, and every contributing
row pushes a trailing newline. -/
theorem flatten_blank_row_counterexample :
    flattenRows [['a','b','c'], [' ',' ',' '], ['d','e','f']]
        = ['a','b','c','d','e','f','\n']
    ∧ flattenJoinSpec [['a','b','c'], [' ',' ',' '], ['d','e','f']]
        = ['a','b','c','\n','d','e','f']
    ∧ flattenRows [['a','b','c'], [' ',' ',' '], ['d','e','f']]
        ≠ flattenJoinSpec [['a','b','c'], [' ',' ',' '], ['d','e','f']] := by
  refine ⟨by decide, by decide, by decide⟩

/-- Claim C2, amended: frame text equals the closed form `flattenAux false`:
each row that trims to non-empty contributes a pending-newline delimiter
(emitted only if the previous contributing row was not followed by a
blank row), its right-trimmed text, and leaves a newline pending; a row
that trims to empty cancels the pending newline, so blank rows fuse their
non-blank neighbours and the text ends in a newline exactly when the last
row is non-blank. -/
theorem flatten_eq_flattenAux (rows : List (List Char)) :
    flattenRows rows = flattenAux false rows := by
  have h := flattenFrom_eq rows [] false trimEnd_nil
  simpa [flattenRows] using h

/-! ## Claim C3 — decode errors -/

/-- Claim C3, counterexample: a malformed record in the middle of a file is
skipped, not treated as a soft end-of-stream: the valid record after it is
still decoded, unlike the spec-modelled soft-EOS behaviour. -/
theorem decode_error_counterexample :
    events [some ⟨0, EntryKind.Output, ['x']⟩, none,
            some ⟨1, EntryKind.Output, ['y']⟩] (some EntryKind.Output)
        = [(0, ['x']), (1, ['y'])]
    ∧ eventsSoftEOS [some ⟨0, EntryKind.Output, ['x']⟩, none,
            some ⟨1, EntryKind.Output, ['y']⟩] (some EntryKind.Output)
        = [(0, ['x'])]
    ∧ events [some ⟨0, EntryKind.Output, ['x']⟩, none,
            some ⟨1, EntryKind.Output, ['y']⟩] (some EntryKind.Output)
        ≠ eventsSoftEOS [some ⟨0, EntryKind.Output, ['x']⟩, none,
            some ⟨1, EntryKind.Output, ['y']⟩] (some EntryKind.Output) := by
  refine ⟨by decide, by decide, by decide⟩

/-- Claim C3, amended: a malformed record is silently skipped and decoding
continues with the records around it, so the event stream is the
concatenation of the streams on either side of the malformed line.  (For a
malformed *trailing* record this coincides with a soft end-of-stream; a
malformed header, by contrast, is `unwrap`ped in `search_file` and aborts
the run.) -/
theorem events_skip_malformed (ls1 ls2 : List (Option Entry))
    (ty : Option EntryKind) :
    events (ls1 ++ none :: ls2) ty = events ls1 ty ++ events ls2 ty := by
  unfold events
  rw [List.filterMap_append]
  rfl

/-! ## Claim C8 — full-frame highlighting -/

theorem hmChar_eq_nil_aux (uc : Bool) (i : Nat) :
    ∀ (rs : List (Nat × Nat)) (acc : List Char),
      (∀ r ∈ rs, i ≠ r.1 ∧ i ≠ r.2) →
      rs.foldl (fun acc r =>
        acc ++ (if i = r.1 then cRed uc else [])
            ++ (if i = r.2 then cReset uc else [])) acc = acc := by
  intro rs
  induction rs with
  | nil => intro acc _; rfl
  | cons r rs ih =>
    intro acc h
    have h1 := h r (by simp)
    simp only [List.foldl_cons, if_neg h1.1, if_neg h1.2, List.append_nil]
    exact ih acc fun r hr => h r (by simp [hr])

theorem hmChar_eq_nil (uc : Bool) (i : Nat) (rs : List (Nat × Nat))
    (h : ∀ r ∈ rs, i ≠ r.1 ∧ i ≠ r.2) : hmChar uc i rs = [] :=
  hmChar_eq_nil_aux uc i rs [] h

theorem hmGo_eq_full (uc : Bool) (rs : List (Nat × Nat)) :
    ∀ (cs : List Char) (i : Nat),
      (∀ r ∈ rs, r.1 < i + cs.length ∧ r.2 < i + cs.length) →
      hmGo uc rs i cs = hmFullSpec uc rs i cs := by
  intro cs
  induction cs with
  | nil =>
    intro i h
    have : hmChar uc i rs = [] := by
      refine hmChar_eq_nil uc i rs fun r hr => ?_
      have := h r hr
      simp only [List.length_nil, Nat.add_zero] at this
      omega
    simp [hmGo, hmFullSpec, this]
  | cons c cs ih =>
    intro i h
    simp only [hmGo, hmFullSpec]
    rw [ih (i + 1) fun r hr => by have := h r hr; simp at this ⊢; omega]

/-- Claim C8, counterexample: with coloring enabled and the single range
`(0, 2)` on the two-character text `"ab"`, the code emits the start marker
but never the end/reset marker, because the character loop visits positions
`0` and `1` only — position `2 = length` is never reached.  The
spec-modelled inserter `hmFullSpec` does emit the final reset. -/
theorem highlight_end_marker_counterexample :
    highlightMatches true ['a', 'b'] [(0, 2)]
        = ['\x1b', '[', '3', '1', 'm', 'a', 'b']
    ∧ hmFullSpec true [(0, 2)] 0 ['a', 'b']
        = ['\x1b', '[', '3', '1', 'm', 'a', 'b', '\x1b', '[', '0', 'm']
    ∧ highlightMatches true ['a', 'b'] [(0, 2)]
        ≠ hmFullSpec true [(0, 2)] 0 ['a', 'b'] := by
  refine ⟨by decide, by decide, by decide⟩

/-- Claim C8, amended: in full-frame mode with coloring enabled the emitted
text is the full `representative_text` with a start marker inserted at each
range's `from` and an end/reset marker at its `to`, provided every marker
position is strictly below the length of `representative_text`; a range
whose `to` equals the length never receives its reset marker (shown by the
counterexample). -/
theorem highlight_matches_markers (text : List Char) (rs : List (Nat × Nat))
    (h : ∀ r ∈ rs, r.1 < text.length ∧ r.2 < text.length) :
    highlightMatches true text rs = hmFullSpec true rs 0 text := by
  unfold highlightMatches
  exact hmGo_eq_full true rs text 0 (by simpa using h)

/-- Witness for `highlight_matches_markers` at the concrete text `"ab"` and
range `(0, 1)`. -/
theorem highlight_matches_markers_witness :
    highlightMatches true ['a', 'b'] [(0, 1)]
      = hmFullSpec true [(0, 1)] 0 ['a', 'b'] :=
  highlight_matches_markers ['a', 'b'] [(0, 1)] (by decide)

end Termgrep

namespace Termgrep

/-! ## Branch lemmas for the scan callback -/

theorem occStep_term (maxM i : Nat) (t : Int) (x : List Char)
    (st : SearchState) (r : Nat × Nat) (h : maxM < st.count + 1) :
    occStep maxM i t x st r = (⟨st.count + 1, st.mi⟩, none, true) := by
  unfold occStep
  rw [if_pos h]

theorem occStep_open (maxM i : Nat) (t : Int) (x : List Char)
    (c : Nat) (r : Nat × Nat) (h : c + 1 ≤ maxM) :
    occStep maxM i t x ⟨c, none⟩ r
      = (⟨c + 1, some ⟨i, i, t, t, x, [r]⟩⟩, none, false) := by
  simp [occStep, Nat.not_lt.mpr h]

theorem occStep_extend (maxM i : Nat) (t : Int) (x : List Char)
    (c : Nat) (r : Nat × Nat) (md : MatchData)
    (h : c + 1 ≤ maxM) (hf : i = md.end_frame + 1) :
    occStep maxM i t x ⟨c, some md⟩ r
      = (⟨c + 1, some ⟨md.start_frame, i, md.start_ts, t, x, [r]⟩⟩,
         none, false) := by
  simp [occStep, Nat.not_lt.mpr h, hf]

theorem occStep_same (maxM i : Nat) (t : Int) (x : List Char)
    (c : Nat) (r : Nat × Nat) (md : MatchData)
    (h : c + 1 ≤ maxM) (hf : i = md.end_frame) :
    occStep maxM i t x ⟨c, some md⟩ r
      = (⟨c + 1, some ⟨md.start_frame, md.end_frame, md.start_ts, md.end_ts,
            md.last_frame_text, md.match_ranges ++ [r]⟩⟩, none, false) := by
  have hne : i ≠ md.end_frame + 1 := by omega
  simp [occStep, Nat.not_lt.mpr h, hne, hf]

theorem occStep_gap (maxM i : Nat) (t : Int) (x : List Char)
    (c : Nat) (r : Nat × Nat) (md : MatchData)
    (h : c + 1 ≤ maxM) (hf1 : i ≠ md.end_frame + 1) (hf2 : i ≠ md.end_frame) :
    occStep maxM i t x ⟨c, some md⟩ r
      = (⟨c + 1, some ⟨i, i, t, t, x, [r]⟩⟩, some md, false) := by
  simp [occStep, Nat.not_lt.mpr h, hf1, hf2]

/-- On a frame whose index equals the open span's `end_frame`, all pending
occurrences are appended to the span's ranges (within the ceiling). -/
theorem scanFrame_same (maxM i : Nat) (t : Int) (x : List Char) :
    ∀ (rs : List (Nat × Nat)) (c : Nat) (md : MatchData),
      md.end_frame = i → c + rs.length ≤ maxM →
      scanFrame maxM i t x ⟨c, some md⟩ rs
        = (⟨c + rs.length, some ⟨md.start_frame, md.end_frame, md.start_ts,
              md.end_ts, md.last_frame_text, md.match_ranges ++ rs⟩⟩,
           [], false) := by
  intro rs
  induction rs with
  | nil => intro c md _ _; simp [scanFrame]
  | cons r rs ih =>
    intro c md hf hc
    have hc1 : c + 1 ≤ maxM := by simp [List.length_cons] at hc; omega
    have hstep := occStep_same maxM i t x c r md hc1 hf.symm
    simp only [scanFrame, hstep]
    have := ih (c + 1)
      ⟨md.start_frame, md.end_frame, md.start_ts, md.end_ts,
        md.last_frame_text, md.match_ranges ++ [r]⟩
      hf (by simp [List.length_cons] at hc ⊢; omega)
    rw [this]
    simp [List.append_assoc, Nat.add_assoc, Nat.add_comm 1 rs.length]

/-- A first occurrence on frame `i` with no open span opens a span whose
ranges end up being all of the frame's occurrences (within the ceiling). -/
theorem scanFrame_open (maxM i : Nat) (t : Int) (x : List Char)
    (r : Nat × Nat) (rs : List (Nat × Nat)) (c : Nat)
    (hc : c + (r :: rs).length ≤ maxM) :
    scanFrame maxM i t x ⟨c, none⟩ (r :: rs)
      = (⟨c + rs.length + 1, some ⟨i, i, t, t, x, r :: rs⟩⟩, [], false) := by
  have hc1 : c + 1 ≤ maxM := by simp [List.length_cons] at hc; omega
  have hstep := occStep_open maxM i t x c r hc1
  simp only [scanFrame, hstep]
  have := scanFrame_same maxM i t x rs (c + 1) ⟨i, i, t, t, x, [r]⟩ rfl
    (by simp [List.length_cons] at hc ⊢; omega)
  rw [this]
  simp [Nat.add_assoc, Nat.add_comm 1 rs.length]

/-- A first occurrence on frame `i` with an open span that is neither
extended (`i ≠ end_frame + 1`) nor the same frame flushes the open span and
opens a fresh one collecting the frame's occurrences. -/
theorem scanFrame_gapOpen (maxM i : Nat) (t : Int) (x : List Char)
    (r : Nat × Nat) (rs : List (Nat × Nat)) (c : Nat) (md : MatchData)
    (hf1 : i ≠ md.end_frame + 1) (hf2 : i ≠ md.end_frame)
    (hc : c + (r :: rs).length ≤ maxM) :
    scanFrame maxM i t x ⟨c, some md⟩ (r :: rs)
      = (⟨c + rs.length + 1, some ⟨i, i, t, t, x, r :: rs⟩⟩, [md], false) := by
  have hc1 : c + 1 ≤ maxM := by simp [List.length_cons] at hc; omega
  have hstep := occStep_gap maxM i t x c r md hc1 hf1 hf2
  simp only [scanFrame, hstep]
  have := scanFrame_same maxM i t x rs (c + 1) ⟨i, i, t, t, x, [r]⟩ rfl
    (by simp [List.length_cons] at hc ⊢; omega)
  rw [this]
  simp [Nat.add_assoc, Nat.add_comm 1 rs.length]

/-- A first occurrence on frame `i = end_frame + 1` extends the open span,
which then collects the frame's occurrences (within the ceiling). -/
theorem scanFrame_extend (maxM i : Nat) (t : Int) (x : List Char)
    (r : Nat × Nat) (rs : List (Nat × Nat)) (c : Nat) (md : MatchData)
    (hf : i = md.end_frame + 1) (hc : c + (r :: rs).length ≤ maxM) :
    scanFrame maxM i t x ⟨c, some md⟩ (r :: rs)
      = (⟨c + rs.length + 1,
          some ⟨md.start_frame, i, md.start_ts, t, x, r :: rs⟩⟩,
         [], false) := by
  have hc1 : c + 1 ≤ maxM := by simp [List.length_cons] at hc; omega
  have hstep := occStep_extend maxM i t x c r md hc1 hf
  simp only [scanFrame, hstep]
  have := scanFrame_same maxM i t x rs (c + 1)
    ⟨md.start_frame, i, md.start_ts, t, x, [r]⟩ rfl
    (by simp [List.length_cons] at hc ⊢; omega)
  rw [this]
  simp [Nat.add_assoc, Nat.add_comm 1 rs.length]

/-! ## Claim C5 — a one-frame gap splits spans -/

/-- Claim C5: if frame 0 produces matches, frame 1 produces none and frame
2 produces matches (all within the ceiling), exactly two spans are flushed,
in order: one covering frame 0 and one covering frame 2. -/
theorem scenario_c_two_spans (scan : List Char → List (Nat × Nat))
    (maxM : Nat) (t0 t1 t2 : Int) (x0 x1 x2 : List Char)
    (h0 : scan x0 ≠ []) (h1 : scan x1 = []) (h2 : scan x2 ≠ [])
    (hm : (scan x0).length + (scan x2).length ≤ maxM) :
    (searchFile scan maxM [(t0, x0), (t1, x1), (t2, x2)]).flushes
      = [⟨0, 0, t0, t0, x0, scan x0⟩, ⟨2, 2, t2, t2, x2, scan x2⟩] := by
  obtain ⟨r0, rs0, e0⟩ := List.exists_cons_of_ne_nil h0
  obtain ⟨r2, rs2, e2⟩ := List.exists_cons_of_ne_nil h2
  have hL0 : (scan x0).length = rs0.length + 1 := by rw [e0]; rfl
  have hL2 : (scan x2).length = rs2.length + 1 := by rw [e2]; rfl
  have hs0 : scanFrame maxM 0 t0 x0 ⟨0, none⟩ (scan x0)
      = (⟨rs0.length + 1, some ⟨0, 0, t0, t0, x0, scan x0⟩⟩, [], false) := by
    rw [e0, scanFrame_open maxM 0 t0 x0 r0 rs0 0
      (by simp [List.length_cons]; omega)]
    norm_num
  have hs2 : scanFrame maxM 2 t2 x2
        ⟨rs0.length + 1, some ⟨0, 0, t0, t0, x0, scan x0⟩⟩ (scan x2)
      = (⟨rs0.length + 1 + rs2.length + 1,
          some ⟨2, 2, t2, t2, x2, scan x2⟩⟩,
         [⟨0, 0, t0, t0, x0, scan x0⟩], false) := by
    rw [e2, scanFrame_gapOpen maxM 2 t2 x2 r2 rs2 (rs0.length + 1)
      ⟨0, 0, t0, t0, x0, scan x0⟩ (by simp) (by simp)
      (by simp [List.length_cons]; omega)]
  simp only [searchFile, searchLoop, hs0, h1, scanFrame, hs2]
  simp

/-- Witness for `scenario_c_two_spans`: the concrete matcher `scanEx` on
frames `"a"`, `"b"`, `"a"` at times 10, 20, 30. -/
theorem scenario_c_two_spans_witness :
    (searchFile scanEx 50 [(10, ['a']), (20, ['b']), (30, ['a'])]).flushes
      = [⟨0, 0, 10, 10, ['a'], scanEx ['a']⟩,
         ⟨2, 2, 30, 30, ['a'], scanEx ['a']⟩] :=
  scenario_c_two_spans scanEx 50 10 20 30 ['a'] ['b'] ['a']
    (by decide) (by decide) (by decide) (by decide)

/-! ## Claim C1 — adjacency is on raw frame indices -/

/-- Claim C1, counterexample: with the matcher `scanEx` (matching only the
frame text `"a"`) over a matching frame 0, a non-matching frame 1 and a
matching frame 2, the occurrence at frame 2 does **not** extend the span
opened at frame 0 — the span is flushed ending at frame 0 and a second
span is opened, i.e. the intervening non-matching frame fragments the
span. -/
theorem gap_fragments_span_counterexample :
    (searchFile scanEx 100 framesEx).flushes
      = [⟨0, 0, 0, 0, ['a'], [(0, 1)]⟩, ⟨2, 2, 2, 2, ['a'], [(0, 1)]⟩]
    ∧ (searchFile scanEx 100 framesEx).flushes.length ≠ 1 := by
  refine ⟨by decide, by decide⟩

/-- Claim C1, amended: in the `Open(span)` state an occurrence at frame `i`
extends the open span exactly when `i = span.end_frame + 1` in raw emitted
frame indices (the immediately following emitted frame also produced a
match); when non-matching frames intervened (`span.end_frame + 1 < i`) the
open span is flushed and a brand-new span is opened at `i` — intervening
non-matching frames do fragment the span. -/
theorem occStep_adjacency (maxM i : Nat) (t : Int) (x : List Char)
    (c : Nat) (r : Nat × Nat) (md : MatchData) (h : c + 1 ≤ maxM) :
    (i = md.end_frame + 1 →
      occStep maxM i t x ⟨c, some md⟩ r
        = (⟨c + 1, some ⟨md.start_frame, i, md.start_ts, t, x, [r]⟩⟩,
           none, false))
    ∧ (md.end_frame + 1 < i →
      occStep maxM i t x ⟨c, some md⟩ r
        = (⟨c + 1, some ⟨i, i, t, t, x, [r]⟩⟩, some md, false)) :=
  ⟨fun hf => occStep_extend maxM i t x c r md h hf,
   fun hf => occStep_gap maxM i t x c r md h (by omega) (by omega)⟩

/-- Witness for `occStep_adjacency`: the gap case at the concrete state
with an open span ending at frame 1 and an occurrence at frame 3. -/
theorem occStep_adjacency_witness :
    occStep 10 3 (7 : Int) ['x'] ⟨0, some ⟨1, 1, 5, 5, ['b'], [(0, 1)]⟩⟩ (0, 1)
      = (⟨1, some ⟨3, 3, 7, 7, ['x'], [(0, 1)]⟩⟩,
         some ⟨1, 1, 5, 5, ['b'], [(0, 1)]⟩, false) :=
  (occStep_adjacency 10 3 (7 : Int) ['x'] 0 (0, 1)
    ⟨1, 1, 5, 5, ['b'], [(0, 1)]⟩ (by omega)).2 (by decide)

/-! ## Claim C4 — ceiling 1 with list-only mode -/

/-- With ceiling 1 and a span already open (one match recorded), every
remaining frame either has no occurrence (state unchanged) or its first
occurrence terminates the scan; either way exactly the one open span is
flushed. -/
theorem searchLoop_afterOpen (scan : List Char → List (Nat × Nat)) :
    ∀ (frames : List (Int × List Char)) (i : Nat) (md : MatchData),
      (searchLoop scan 1 i ⟨1, some md⟩ frames).flushes.length = 1 := by
  intro frames
  induction frames with
  | nil => intro i md; simp [searchLoop]
  | cons f rest ih =>
    intro i md
    obtain ⟨t, x⟩ := f
    cases hx : scan x with
    | nil =>
      simp only [searchLoop, hx, scanFrame]
      simpa using ih (i + 1) md
    | cons r rs =>
      have hstep : occStep 1 i t x ⟨1, some md⟩ r = (⟨2, some md⟩, none, true) :=
        occStep_term 1 i t x ⟨1, some md⟩ r (Nat.lt_succ_self 1)
      simp [searchLoop, hx, scanFrame, hstep]

theorem list_only_aux (scan : List Char → List (Nat × Nat)) :
    ∀ (frames : List (Int × List Char)) (i : Nat),
      (∃ p ∈ frames, scan p.2 ≠ []) →
      (searchLoop scan 1 i ⟨0, none⟩ frames).flushes.length = 1 := by
  intro frames
  induction frames with
  | nil => intro i h; simp at h
  | cons f rest ih =>
    intro i h
    obtain ⟨t, x⟩ := f
    by_cases hx : scan x = []
    · have h' : ∃ p ∈ rest, scan p.2 ≠ [] := by
        rcases h with ⟨p, hp, hne⟩
        rcases List.mem_cons.mp hp with hp | hp
        · exact absurd hx (by simpa [hp] using hne)
        · exact ⟨p, hp, hne⟩
      simp only [searchLoop, hx, scanFrame]
      simpa using ih (i + 1) h'
    · obtain ⟨r, rs, e⟩ := List.exists_cons_of_ne_nil hx
      have hopen : occStep 1 i t x ⟨0, none⟩ r
          = (⟨1, some ⟨i, i, t, t, x, [r]⟩⟩, none, false) :=
        occStep_open 1 i t x 0 r (by omega)
      cases rs with
      | nil =>
        simp only [searchLoop, e, scanFrame, hopen]
        simpa using searchLoop_afterOpen scan rest (i + 1) ⟨i, i, t, t, x, [r]⟩
      | cons r2 rs2 =>
        have hterm : occStep 1 i t x ⟨1, some ⟨i, i, t, t, x, [r]⟩⟩ r2
            = (⟨2, some ⟨i, i, t, t, x, [r]⟩⟩, none, true) :=
          occStep_term 1 i t x ⟨1, some ⟨i, i, t, t, x, [r]⟩⟩ r2
            (Nat.lt_succ_self 1)
        simp [searchLoop, e, scanFrame, hopen, hterm]

/-- Claim C4, amended: with a match ceiling of 1 (what list-only mode
forces), every file containing at least one match flushes exactly one span,
so in list-only mode the file's display name is printed exactly once; the
scan is *not* limited to the frame containing the first match — later
frames keep being scanned until a second occurrence (if any) triggers
termination, as the counterexample shows. -/
theorem list_only_prints_once (scan : List Char → List (Nat × Nat))
    (frames : List (Int × List Char)) (h : ∃ p ∈ frames, scan p.2 ≠ []) :
    (searchFile scan 1 frames).flushes.length = 1 :=
  list_only_aux scan frames 0 h

/-- Witness for `list_only_prints_once` on concrete frames. -/
theorem list_only_prints_once_witness :
    (searchFile scanEx 1 [(0, ['a']), (1, ['b']), (2, ['a'])]).flushes.length
      = 1 :=
  list_only_prints_once scanEx [(0, ['a']), (1, ['b']), (2, ['a'])]
    ⟨(0, ['a']), by decide, by decide⟩

/-- Claim C4, counterexample: ceiling 1, a match on frame 0 and a
non-matching frame 1.  Frame 1 — which comes after the frame containing the
first match — is still handed to the pattern matcher (`scanned = [0, 1]`),
refuting "no frames after the frame containing the first match are
scanned"; the single flush (one printed file name) still holds. -/
theorem ceiling_scans_later_frames_counterexample :
    (searchFile scanEx 1 [(0, ['a']), (1, ['b'])]).scanned = [0, 1]
    ∧ (searchFile scanEx 1 [(0, ['a']), (1, ['b'])]).flushes.length = 1 := by
  refine ⟨by decide, by decide⟩

/-! ## Claim C10 — the match counter is per-file -/

theorem occStep_no_term (maxM i : Nat) (t : Int) (x : List Char)
    (st : SearchState) (r : Nat × Nat) (h : st.count + 1 ≤ maxM) :
    ∃ mi' fl, occStep maxM i t x st r = (⟨st.count + 1, mi'⟩, fl, false) := by
  obtain ⟨c, mi⟩ := st
  cases mi with
  | none => exact ⟨_, _, occStep_open maxM i t x c r h⟩
  | some md =>
    by_cases h1 : i = md.end_frame + 1
    · exact ⟨_, _, occStep_extend maxM i t x c r md h h1⟩
    · by_cases h2 : i = md.end_frame
      · exact ⟨_, _, occStep_same maxM i t x c r md h h2⟩
      · exact ⟨_, _, occStep_gap maxM i t x c r md h h1 h2⟩

/-- As long as the ceiling is not exceeded, a frame scan is never
terminated and the counter advances by the number of occurrences. -/
theorem scanFrame_no_term (maxM i : Nat) (t : Int) (x : List Char) :
    ∀ (rs : List (Nat × Nat)) (st : SearchState),
      st.count + rs.length ≤ maxM →
      (scanFrame maxM i t x st rs).1.count = st.count + rs.length
      ∧ (scanFrame maxM i t x st rs).2.2 = false := by
  intro rs
  induction rs with
  | nil => intro st h; simp [scanFrame]
  | cons r rs ih =>
    intro st h
    obtain ⟨mi', fl, he⟩ := occStep_no_term maxM i t x st r
      (by simp [List.length_cons] at h; omega)
    have := ih ⟨st.count + 1, mi'⟩ (by simp [List.length_cons] at h ⊢; omega)
    simp only [scanFrame, he]
    simpa [Nat.add_assoc, Nat.add_comm 1 rs.length] using this

/-- When a file's total number of occurrences stays within the ceiling,
every frame of the file is handed to the matcher (no early termination). -/
theorem searchLoop_scans_all (scan : List Char → List (Nat × Nat))
    (maxM : Nat) :
    ∀ (frames : List (Int × List Char)) (i : Nat) (st : SearchState),
      st.count + totalOccs scan frames ≤ maxM →
      (searchLoop scan maxM i st frames).scanned
        = List.range' i frames.length := by
  intro frames
  induction frames with
  | nil => intro i st _; simp [searchLoop, List.range']
  | cons f rest ih =>
    intro i st h
    obtain ⟨t, x⟩ := f
    have htot : (scan x).length + totalOccs scan rest = totalOccs scan ((t, x) :: rest) := by
      simp [totalOccs]
    have hsf := scanFrame_no_term maxM i t x (scan x) st (by omega)
    rcases hres : scanFrame maxM i t x st (scan x) with ⟨st', fls, tm⟩
    rw [hres] at hsf
    simp only at hsf
    obtain ⟨hcount, htm⟩ := hsf
    subst htm
    simp only [searchLoop, hres]
    rw [ih (i + 1) st' (by rw [hcount]; omega)]
    simp [List.range']

theorem runFiles_eq_map (scan : List Char → List (Nat × Nat)) (m : Nat) :
    ∀ files : List (List Char × List (Int × List Char)),
      runFiles scan m files
        = files.map fun f => (f.1, searchLoop scan m 0 ⟨0, none⟩ f.2) := by
  intro files
  induction files with
  | nil => rfl
  | cons f fs ih => simp [runFiles, searchFile, ih]

/-- Claim C10: the match counter is per-file.  `main`'s file loop invokes
`search_file` afresh for each file, and each invocation starts the counter
at `0` with no open span, so a file's result never depends on earlier files
(first conjunct); moreover with ceiling `m`, a file whose total occurrence
count stays within `m` is scanned to the end — early termination on some
other file cannot reduce its quota (second conjunct). -/
theorem match_ceiling_per_file (scan : List Char → List (Nat × Nat))
    (m : Nat) (files : List (List Char × List (Int × List Char)))
    (frames : List (Int × List Char)) (h : totalOccs scan frames ≤ m) :
    runFiles scan m files
      = (files.map fun f => (f.1, searchLoop scan m 0 ⟨0, none⟩ f.2))
    ∧ (searchFile scan m frames).scanned = List.range frames.length := by
  constructor
  · exact runFiles_eq_map scan m files
  · rw [searchFile, searchLoop_scans_all scan m frames 0 ⟨0, none⟩ (by simpa using h)]
    exact (List.range_eq_range' frames.length).symm

/-- Witness for `match_ceiling_per_file` on a one-file list and the
Scenario C frames, whose two occurrences stay within ceiling 5. -/
theorem match_ceiling_per_file_witness :
    runFiles scanEx 5 [(['f'], framesEx)]
      = ([(['f'], framesEx)].map fun f => (f.1, searchLoop scanEx 5 0 ⟨0, none⟩ f.2))
    ∧ (searchFile scanEx 5 framesEx).scanned = List.range framesEx.length :=
  match_ceiling_per_file scanEx 5 [(['f'], framesEx)] framesEx (by decide)

/-! ## Claim C9 — determinism of the coalescer -/

/-- The guards of the five callback branches are mutually exclusive, so the
transition relation is deterministic. -/
theorem coStep_det (maxM : Nat) (st : SearchState) (e : OccEvent)
    (st1 st2 : SearchState) (f1 f2 : Option MatchData) (b1 b2 : Bool)
    (h1 : CoStep maxM st e st1 f1 b1) (h2 : CoStep maxM st e st2 f2 b2) :
    st1 = st2 ∧ f1 = f2 ∧ b1 = b2 := by
  cases h1 <;> cases h2 <;> simp_all <;> omega

/-- Each branch of `occStep` is a `CoStep` transition. -/
theorem occStep_coStep (maxM : Nat) (st : SearchState) (e : OccEvent) :
    CoStep maxM st e (occStep maxM e.frame e.time e.text st e.range).1
      (occStep maxM e.frame e.time e.text st e.range).2.1
      (occStep maxM e.frame e.time e.text st e.range).2.2 := by
  obtain ⟨c, mi⟩ := st
  by_cases hc : maxM < c + 1
  · rw [occStep_term maxM e.frame e.time e.text ⟨c, mi⟩ e.range hc]
    exact CoStep.term ⟨c, mi⟩ e hc
  · cases mi with
    | none =>
      rw [occStep_open maxM e.frame e.time e.text c e.range (by omega)]
      exact CoStep.openIdle ⟨c, none⟩ e (show c + 1 ≤ maxM from by omega) rfl
    | some md =>
      by_cases h1 : e.frame = md.end_frame + 1
      · rw [occStep_extend maxM e.frame e.time e.text c e.range md (by omega) h1]
        exact CoStep.extend ⟨c, some md⟩ e md (show c + 1 ≤ maxM from by omega)
          rfl h1
      · by_cases h2 : e.frame = md.end_frame
        · rw [occStep_same maxM e.frame e.time e.text c e.range md (by omega) h2]
          exact CoStep.sameFrame ⟨c, some md⟩ e md
            (show c + 1 ≤ maxM from by omega) rfl h2
        · rw [occStep_gap maxM e.frame e.time e.text c e.range md (by omega) h1 h2]
          exact CoStep.gap ⟨c, some md⟩ e md (show c + 1 ≤ maxM from by omega)
            rfl h1 h2

/-- The functional runner realises the transition relation: every event
stream carries the run computed by `coalesceOccs`. -/
theorem coRun_realizes (maxM : Nat) :
    ∀ (es : List OccEvent) (st : SearchState),
      CoRun maxM st es (coalesceOccs maxM st es) := by
  intro es
  induction es with
  | nil => intro st; exact CoRun.nil st
  | cons e es ih =>
    intro st
    have hstep := occStep_coStep maxM st e
    rcases hres : occStep maxM e.frame e.time e.text st e.range
      with ⟨st', fl, tm⟩
    rw [hres] at hstep
    simp only at hstep
    cases tm with
    | true =>
      have hco : coalesceOccs maxM st (e :: es) = fl.toList ++ st'.mi.toList := by
        simp only [coalesceOccs, hres]
      rw [hco]
      exact CoRun.consTerm st st' e es fl hstep
    | false =>
      have hco : coalesceOccs maxM st (e :: es)
          = fl.toList ++ coalesceOccs maxM st' es := by
        simp only [coalesceOccs, hres]
      rw [hco]
      exact CoRun.consCont st st' e es fl (coalesceOccs maxM st' es) hstep (ih st')

/-- Claim C9: the coalescer is deterministic — two runs over the identical
occurrence-event stream from the same state flush the identical ordered
sequence of spans. -/
theorem coalescer_deterministic (maxM : Nat) (st : SearchState)
    (es : List OccEvent) (out1 : List MatchData)
    (h1 : CoRun maxM st es out1) :
    ∀ out2 : List MatchData, CoRun maxM st es out2 → out1 = out2 := by
  induction h1 with
  | nil st1 =>
    intro out2 h2
    cases h2
    rfl
  | consTerm stA stA' e es fl hs =>
    intro out2 h2
    cases h2 with
    | consTerm _ stB' _ _ flB hs2 =>
      obtain ⟨hst, hfl, _⟩ := coStep_det maxM stA e stA' stB' fl flB true true hs hs2
      rw [hst, hfl]
    | consCont _ stB' _ _ flB outB hs2 _ =>
      obtain ⟨_, _, hb⟩ := coStep_det maxM stA e stA' stB' fl flB true false hs hs2
      exact absurd hb (by simp)
  | consCont stA stA' e es fl out hs hr ih =>
    intro out2 h2
    cases h2 with
    | consTerm _ stB' _ _ flB hs2 =>
      obtain ⟨_, _, hb⟩ := coStep_det maxM stA e stA' stB' fl flB false true hs hs2
      exact absurd hb (by simp)
    | consCont _ stB' _ _ flB outB hs2 hr2 =>
      obtain ⟨hst, hfl, _⟩ := coStep_det maxM stA e stA' stB' fl flB false false hs hs2
      rw [hfl, ih outB (hst ▸ hr2)]

/-- Witness for `coalescer_deterministic`: an explicitly constructed run
and the run computed by `coalesceOccs` over the same one-event stream
agree. -/
theorem coalescer_deterministic_witness :
    [(⟨0, 0, 5, 5, ['a'], [(0, 1)]⟩ : MatchData)]
      = coalesceOccs 10 ⟨0, none⟩ [⟨0, 5, ['a'], (0, 1)⟩] :=
  coalescer_deterministic 10 ⟨0, none⟩ [⟨0, 5, ['a'], (0, 1)⟩]
    [⟨0, 0, 5, 5, ['a'], [(0, 1)]⟩]
    (CoRun.consCont ⟨0, none⟩ ⟨1, some ⟨0, 0, 5, 5, ['a'], [(0, 1)]⟩⟩
      ⟨0, 5, ['a'], (0, 1)⟩ [] none [⟨0, 0, 5, 5, ['a'], [(0, 1)]⟩]
      (CoStep.openIdle ⟨0, none⟩ ⟨0, 5, ['a'], (0, 1)⟩ (by decide) rfl)
      (CoRun.nil ⟨1, some ⟨0, 0, 5, 5, ['a'], [(0, 1)]⟩⟩))
    (coalesceOccs 10 ⟨0, none⟩ [⟨0, 5, ['a'], (0, 1)⟩])
    (coRun_realizes 10 [⟨0, 5, ['a'], (0, 1)⟩] ⟨0, none⟩)

/-! ## Claim C6 — flushed spans are well-formed -/

/-- Invariant propagation through one frame's occurrence list: assuming the
frame's report is well-formed and the incoming open span (if any) is
well-formed, ends no later than `i`, and — if it is already on frame `i` —
carries the frame's text and chains with the pending occurrences, then all
spans flushed during the frame and the resulting open span are well-formed
and end no later than `i`. -/
theorem scanFrame_spanOk (maxM i : Nat) (t : Int) (x : List Char) :
    ∀ (rs : List (Nat × Nat)) (st : SearchState),
      rs.Pairwise rangeRel →
      (∀ r ∈ rs, r.1 < r.2 ∧ r.2 ≤ x.length) →
      (∀ md, st.mi = some md → SpanOk md) →
      (∀ md, st.mi = some md → md.end_frame ≤ i) →
      (∀ md, st.mi = some md → md.end_frame = i →
        md.last_frame_text = x ∧ (md.match_ranges ++ rs).Pairwise rangeRel) →
      (∀ md ∈ (scanFrame maxM i t x st rs).2.1, SpanOk md)
      ∧ (∀ md, (scanFrame maxM i t x st rs).1.mi = some md → SpanOk md)
      ∧ (∀ md, (scanFrame maxM i t x st rs).1.mi = some md →
          md.end_frame ≤ i) := by
  intro rs
  induction rs with
  | nil =>
    intro st _ _ hok hle _
    refine ⟨?_, ?_, ?_⟩
    · intro md hmem; simp [scanFrame] at hmem
    · intro md h; exact hok md (by simpa [scanFrame] using h)
    · intro md h; exact hle md (by simpa [scanFrame] using h)
  | cons r rs ih =>
    intro st hpw hbd hok hle hlink
    obtain ⟨c, mi⟩ := st
    by_cases hc : maxM < c + 1
    · have hstep := occStep_term maxM i t x ⟨c, mi⟩ r hc
      simp only [scanFrame, hstep, Option.toList_none]
      refine ⟨?_, ?_, ?_⟩
      · intro md hmem; simp at hmem
      · intro md h; exact hok md h
      · intro md h; exact hle md h
    · have hc' : c + 1 ≤ maxM := by omega
      have hbd' : ∀ r' ∈ rs, r'.1 < r'.2 ∧ r'.2 ≤ x.length :=
        fun r' h => hbd r' (List.mem_cons_of_mem r h)
      have hbdr := hbd r (List.mem_cons_self r rs)
      cases mi with
      | none =>
        have hstep := occStep_open maxM i t x c r hc'
        have hmd0 : SpanOk (⟨i, i, t, t, x, [r]⟩ : MatchData) := by
          refine ⟨Nat.le_refl i, List.pairwise_singleton rangeRel r, ?_⟩
          intro r' hr'
          rw [List.mem_singleton] at hr'
          subst hr'
          exact hbdr
        have hrec := ih ⟨c + 1, some ⟨i, i, t, t, x, [r]⟩⟩ hpw.of_cons hbd'
          (fun md h => by
            obtain rfl : (⟨i, i, t, t, x, [r]⟩ : MatchData) = md :=
              Option.some.inj h
            exact hmd0)
          (fun md h => by
            obtain rfl : (⟨i, i, t, t, x, [r]⟩ : MatchData) = md :=
              Option.some.inj h
            exact Nat.le_refl i)
          (fun md h _ => by
            obtain rfl : (⟨i, i, t, t, x, [r]⟩ : MatchData) = md :=
              Option.some.inj h
            exact ⟨rfl, hpw⟩)
        simp only [scanFrame, hstep, Option.toList_none, List.nil_append]
        exact hrec
      | some md =>
        by_cases h1 : i = md.end_frame + 1
        · have hstep := occStep_extend maxM i t x c r md hc' h1
          have hmd0 : SpanOk
              (⟨md.start_frame, i, md.start_ts, t, x, [r]⟩ : MatchData) := by
            refine ⟨?_, List.pairwise_singleton rangeRel r, ?_⟩
            · show md.start_frame ≤ i
              have := (hok md rfl).1
              omega
            · intro r' hr'
              rw [List.mem_singleton] at hr'
              subst hr'
              exact hbdr
          have hrec := ih ⟨c + 1,
              some ⟨md.start_frame, i, md.start_ts, t, x, [r]⟩⟩
            hpw.of_cons hbd'
            (fun md' h => by
              obtain rfl : (⟨md.start_frame, i, md.start_ts, t, x, [r]⟩ :
                  MatchData) = md' := Option.some.inj h
              exact hmd0)
            (fun md' h => by
              obtain rfl : (⟨md.start_frame, i, md.start_ts, t, x, [r]⟩ :
                  MatchData) = md' := Option.some.inj h
              exact Nat.le_refl i)
            (fun md' h _ => by
              obtain rfl : (⟨md.start_frame, i, md.start_ts, t, x, [r]⟩ :
                  MatchData) = md' := Option.some.inj h
              exact ⟨rfl, hpw⟩)
          simp only [scanFrame, hstep, Option.toList_none, List.nil_append]
          exact hrec
        · by_cases h2 : i = md.end_frame
          · have hstep := occStep_same maxM i t x c r md hc' h2
            obtain ⟨htext, hpw2⟩ := hlink md rfl h2.symm
            have hpw2' : ((md.match_ranges ++ [r]) ++ rs).Pairwise rangeRel := by
              rw [← List.append_cons]
              exact hpw2
            have hmd0 : SpanOk (⟨md.start_frame, md.end_frame, md.start_ts,
                md.end_ts, md.last_frame_text,
                md.match_ranges ++ [r]⟩ : MatchData) := by
              refine ⟨(hok md rfl).1, ?_, ?_⟩
              · exact hpw2'.sublist (List.sublist_append_left _ rs)
              · intro r' hr'
                rcases List.mem_append.mp hr' with hr' | hr'
                · exact (hok md rfl).2.2 r' hr'
                · rw [List.mem_singleton] at hr'
                  subst hr'
                  rw [htext]
                  exact hbdr
            have hrec := ih ⟨c + 1, some ⟨md.start_frame, md.end_frame,
                md.start_ts, md.end_ts, md.last_frame_text,
                md.match_ranges ++ [r]⟩⟩
              hpw.of_cons hbd'
              (fun md' h => by
                obtain rfl : (⟨md.start_frame, md.end_frame, md.start_ts,
                    md.end_ts, md.last_frame_text,
                    md.match_ranges ++ [r]⟩ : MatchData) = md' :=
                  Option.some.inj h
                exact hmd0)
              (fun md' h => by
                obtain rfl : (⟨md.start_frame, md.end_frame, md.start_ts,
                    md.end_ts, md.last_frame_text,
                    md.match_ranges ++ [r]⟩ : MatchData) = md' :=
                  Option.some.inj h
                show md.end_frame ≤ i
                omega)
              (fun md' h _ => by
                obtain rfl : (⟨md.start_frame, md.end_frame, md.start_ts,
                    md.end_ts, md.last_frame_text,
                    md.match_ranges ++ [r]⟩ : MatchData) = md' :=
                  Option.some.inj h
                exact ⟨htext, hpw2'⟩)
            simp only [scanFrame, hstep, Option.toList_none, List.nil_append]
            exact hrec
          · have hstep := occStep_gap maxM i t x c r md hc' h1 h2
            have hmd0 : SpanOk (⟨i, i, t, t, x, [r]⟩ : MatchData) := by
              refine ⟨Nat.le_refl i, List.pairwise_singleton rangeRel r, ?_⟩
              intro r' hr'
              rw [List.mem_singleton] at hr'
              subst hr'
              exact hbdr
            have hrec := ih ⟨c + 1, some ⟨i, i, t, t, x, [r]⟩⟩ hpw.of_cons hbd'
              (fun md' h => by
                obtain rfl : (⟨i, i, t, t, x, [r]⟩ : MatchData) = md' :=
                  Option.some.inj h
                exact hmd0)
              (fun md' h => by
                obtain rfl : (⟨i, i, t, t, x, [r]⟩ : MatchData) = md' :=
                  Option.some.inj h
                exact Nat.le_refl i)
              (fun md' h _ => by
                obtain rfl : (⟨i, i, t, t, x, [r]⟩ : MatchData) = md' :=
                  Option.some.inj h
                exact ⟨rfl, hpw⟩)
            simp only [scanFrame, hstep]
            refine ⟨?_, hrec.2.1, hrec.2.2⟩
            intro md0 hmem
            simp only [Option.toList_some, List.cons_append,
              List.nil_append] at hmem
            rcases List.mem_cons.mp hmem with rfl | hmem
            · exact hok _ rfl
            · exact hrec.1 md0 hmem

theorem searchLoop_spanOk (scan : List Char → List (Nat × Nat)) (maxM : Nat)
    (hM : MatcherOk scan) :
    ∀ (frames : List (Int × List Char)) (i : Nat) (st : SearchState),
      (∀ md, st.mi = some md → SpanOk md) →
      (∀ md, st.mi = some md → md.end_frame < i) →
      ∀ md ∈ (searchLoop scan maxM i st frames).flushes, SpanOk md := by
  intro frames
  induction frames with
  | nil =>
    intro i st hok _ md hmem
    simp only [searchLoop] at hmem
    rcases hmi : st.mi with _ | m
    · rw [hmi] at hmem; simp at hmem
    · rw [hmi] at hmem
      simp only [Option.toList_some, List.mem_singleton] at hmem
      subst hmem
      exact hok md hmi
  | cons f rest ih =>
    intro i st hok hlt md0 hmem
    obtain ⟨t, x⟩ := f
    obtain ⟨hMp, hMb⟩ := hM x
    have hinv := scanFrame_spanOk maxM i t x (scan x) st hMp hMb hok
      (fun md h => Nat.le_of_lt (hlt md h))
      (fun md h heq => absurd heq (by have := hlt md h; omega))
    rcases hres : scanFrame maxM i t x st (scan x) with ⟨st', fls, tm⟩
    rw [hres] at hinv
    simp only at hinv
    obtain ⟨hfl, hmi', hle'⟩ := hinv
    cases tm with
    | true =>
      simp only [searchLoop, hres] at hmem
      rcases List.mem_append.mp hmem with hmem | hmem
      · exact hfl md0 hmem
      · rcases hmi2 : st'.mi with _ | m
        · rw [hmi2] at hmem; simp at hmem
        · rw [hmi2] at hmem
          simp only [Option.toList_some, List.mem_singleton] at hmem
          subst hmem
          exact hmi' md0 hmi2
    | false =>
      simp only [searchLoop, hres] at hmem
      rcases List.mem_append.mp hmem with hmem | hmem
      · exact hfl md0 hmem
      · exact ih (i + 1) st' hmi'
          (fun md h => Nat.lt_succ_of_le (hle' md h)) md0 hmem

/-- Claim C6: assuming the matcher contract (per frame, non-overlapping
ascending in-bounds ranges), every flushed span has pairwise strictly
ascending, non-overlapping ranges, each inside
`[0, length representative_text]`, and `start_frame ≤ end_frame`. -/
theorem flushed_spans_invariant (scan : List Char → List (Nat × Nat))
    (maxM : Nat) (frames : List (Int × List Char)) (hM : MatcherOk scan) :
    ∀ md ∈ (searchFile scan maxM frames).flushes, SpanOk md :=
  searchLoop_spanOk scan maxM hM frames 0 ⟨0, none⟩
    (fun _ h => nomatch h) (fun _ h => nomatch h)

theorem scanEx_matcherOk : MatcherOk scanEx := by
  intro text
  by_cases h : text = ['a']
  · subst h
    exact ⟨List.pairwise_singleton rangeRel (0, 1), by decide⟩
  · simp only [scanEx, if_neg h]
    exact ⟨List.Pairwise.nil, by simp⟩

/-- Witness for `flushed_spans_invariant`: the first span flushed by the
concrete Scenario C run is well-formed. -/
theorem flushed_spans_invariant_witness :
    SpanOk ⟨0, 0, 0, 0, ['a'], [(0, 1)]⟩ :=
  flushed_spans_invariant scanEx 100 framesEx scanEx_matcherOk
    ⟨0, 0, 0, 0, ['a'], [(0, 1)]⟩ (by decide)

/-! ## Claim C7 — line-only highlighting -/

/-- The range loop of `highlight_matchlines` is the reference renderer over
exactly the fully-contained ranges, with `line_pos` ending at the last
contained range's end. -/
theorem lineFold_eq (uc : Bool) (line : List Char) (pos lineEnd : Nat) :
    ∀ (rs : List (Nat × Nat)) (acc : List Char) (lp : Nat),
      lineFold uc line pos lineEnd rs (acc, lp)
        = (acc ++ renderMid uc line lp (containedRanges pos lineEnd rs),
           lastEnd lp (containedRanges pos lineEnd rs)) := by
  intro rs
  induction rs with
  | nil => intro acc lp; simp [lineFold, containedRanges, renderMid, lastEnd]
  | cons r rs ih =>
    intro acc lp
    obtain ⟨f, t⟩ := r
    by_cases hct : pos ≤ f ∧ t ≤ lineEnd
    · have hcr : containedRanges pos lineEnd ((f, t) :: rs)
          = (f - pos, t - pos) :: containedRanges pos lineEnd rs := by
        simp [containedRanges, List.filter_cons, hct]
      simp only [lineFold, if_pos hct, hcr, renderMid, lastEnd]
      rw [ih]
      simp [List.append_assoc]
    · have hcr : containedRanges pos lineEnd ((f, t) :: rs)
          = containedRanges pos lineEnd rs := by
        simp [containedRanges, List.filter_cons, hct]
      simp only [lineFold, if_neg hct, hcr]
      exact ih acc lp

/-- Appending the tail after the last range turns the mid-render into the
full reference render. -/
theorem renderMid_append_drop (uc : Bool) (line : List Char) :
    ∀ (crs : List (Nat × Nat)) (p : Nat),
      renderMid uc line p crs ++ line.drop (lastEnd p crs)
        = renderSeg uc line p crs := by
  intro crs
  induction crs with
  | nil => intro p; simp [renderMid, lastEnd, renderSeg]
  | cons c crs ih =>
    intro p
    obtain ⟨f, t⟩ := c
    simp only [renderMid, lastEnd, renderSeg, List.append_assoc]
    rw [← ih t]

theorem lastEnd_pos :
    ∀ (crs : List (Nat × Nat)) (p : Nat), crs ≠ [] →
      (∀ r ∈ crs, 1 ≤ r.2) → 1 ≤ lastEnd p crs := by
  intro crs
  induction crs with
  | nil => intro p h _; exact absurd rfl h
  | cons c crs ih =>
    intro p _ hb
    cases crs with
    | nil => exact hb c (by simp)
    | cons c2 crs2 =>
      exact ih c.2 (by simp) fun r hr => hb r (List.mem_cons_of_mem c hr)

theorem containedRanges_mem (pos lineEnd : Nat) (rs : List (Nat × Nat))
    (c : Nat × Nat) (h : c ∈ containedRanges pos lineEnd rs) :
    ∃ r ∈ rs, pos ≤ r.1 ∧ r.2 ≤ lineEnd ∧ c = (r.1 - pos, r.2 - pos) := by
  simp only [containedRanges, List.mem_map, List.mem_filter,
    decide_eq_true_eq] at h
  obtain ⟨r, ⟨hr, hc1, hc2⟩, hce⟩ := h
  exact ⟨r, hr, hc1, hc2, hce.symm⟩

theorem renderSeg_ne_nil (uc : Bool) (line : List Char) (f t : Nat)
    (crs : List (Nat × Nat)) (h1 : 1 ≤ t - f) (h2 : f < line.length) :
    renderSeg uc line 0 ((f, t) :: crs) ≠ [] := by
  intro hcontra
  have hlen := congrArg List.length hcontra
  simp only [renderSeg, List.length_append, List.length_take,
    List.length_drop, List.length_nil] at hlen
  omega

/-- The line loop of `highlight_matchlines` agrees with the reference
line-only renderer: a line is emitted iff it fully contains at least one
(non-empty) range. -/
theorem hmlLines_eq_mls (uc sln : Bool) (rs : List (Nat × Nat))
    (hne : ∀ r ∈ rs, r.1 < r.2) :
    ∀ (lines : List (List Char)) (i pos : Nat),
      hmlLines uc sln rs i pos lines = mlsGo uc sln rs i pos lines := by
  intro lines
  induction lines with
  | nil => intro i pos; rfl
  | cons line rest ih =>
    intro i pos
    have hfold := lineFold_eq uc line pos (pos + line.length) rs [] 0
    cases hcrs : containedRanges pos (pos + line.length) rs with
    | nil =>
      rw [hcrs] at hfold
      simp only [hmlLines, mlsGo, hfold, hcrs, renderMid, lastEnd,
        List.nil_append]
      simp [ih (i + 1) (pos + line.length + 1)]
    | cons c1 crs2 =>
      obtain ⟨f1, t1⟩ := c1
      rw [hcrs] at hfold
      obtain ⟨r1, hr1, hg1, hg2, hge⟩ := containedRanges_mem pos
        (pos + line.length) rs (f1, t1) (hcrs ▸ List.mem_cons_self _ _)
      have hr1lt := hne r1 hr1
      have hf1 : f1 = r1.1 - pos := congrArg Prod.fst hge
      have ht1 : t1 = r1.2 - pos := congrArg Prod.snd hge
      have htf : 1 ≤ t1 - f1 := by omega
      have hflen : f1 < line.length := by omega
      have hpos : 1 ≤ lastEnd 0 ((f1, t1) :: crs2) := by
        refine lastEnd_pos ((f1, t1) :: crs2) 0 (by simp) ?_
        intro r hr
        obtain ⟨rr, hrr, hh1, hh2, hhe⟩ := containedRanges_mem pos
          (pos + line.length) rs r (hcrs ▸ hr)
        have := hne rr hrr
        rw [hhe]
        simp only
        omega
      have hne0 : lastEnd 0 ((f1, t1) :: crs2) ≠ 0 := by omega
      simp only [hmlLines, hfold, List.nil_append]
      rw [if_pos hne0, renderMid_append_drop]
      rw [if_pos (renderSeg_ne_nil uc line f1 t1 crs2 htf hflen)]
      simp only [mlsGo, hcrs]
      rw [if_pos (List.cons_ne_nil (f1, t1) crs2)]
      rw [ih (i + 1) (pos + line.length + 1)]

/-- Claim C7, amended: in line-only mode `representative_text` is split on
newline characters and, under the matcher contract (ascending non-empty
ranges), a line is emitted — with an optional 1-based 4-column right-aligned
line number — iff it *fully contains* at least one range (`from` at or
after the line start and `to` at or before the line end), rendered with
exactly its contained ranges highlighted; a line merely intersected by a
range that crosses a newline boundary is omitted (see the
counterexample). -/
theorem highlight_matchlines_contained (uc sln : Bool) (text : List Char)
    (rs : List (Nat × Nat)) (_hpw : rs.Pairwise rangeRel)
    (hne : ∀ r ∈ rs, r.1 < r.2) :
    highlightMatchlines uc sln text rs = matchlinesSpec uc sln text rs :=
  hmlLines_eq_mls uc sln rs hne (rustLines text) 0 0

/-- Witness for `highlight_matchlines_contained`: text `"abc
def"` with
the range `(5, 7)` contained in the second line. -/
theorem highlight_matchlines_contained_witness :
    highlightMatchlines true true ("abc
def".toList) [(5, 7)]
      = matchlinesSpec true true ("abc
def".toList) [(5, 7)] :=
  highlight_matchlines_contained true true ("abc
def".toList) [(5, 7)]
    (by decide) (by decide)

/-- Claim C7, counterexample: on `representative_text = "abc
def"` the
range `(2, 5)` intersects both lines (offset 2 lies in line 1, offset 4 in
line 2), yet `highlight_matchlines` emits nothing at all, because the range
is fully contained in neither line — refuting "for every line that
intersects at least one of the span's ranges, exactly that line is
emitted". -/
theorem matchline_intersection_counterexample :
    rustLines ("abc
def".toList) = [['a','b','c'], ['d','e','f']]
    ∧ highlightMatchlines true false ("abc
def".toList) [(2, 5)] = [] := by
  refine ⟨by decide, by decide⟩

end Termgrep
